import Mathlib

/-!
# Box blur and horizontal flip kernels (`Box_Blur_Flip.c`)

A shallow embedding of the two CUDA kernels of `Box_Blur_Flip.c` and of the
launch configuration computed in `main`.

Modelling conventions.

* A device buffer (`unsigned char *`) is a `List Nat`; a read or a write outside
  the buffer is undefined in C and is `none` here.
* C `int` values are mathematical integers (`Int`), `/` on `int` is the
  truncating division `Int.tdiv`, and a division by zero is `none`.  The store
  of an `int` to an `unsigned char` cell reduces the value modulo `256`.
  Signed overflow is undefined in C and is not part of this model: the theorems
  about `flip_horizontal_kernel` and `box_blur_kernel` speak of runs in which
  every `int` value is the exact integer.  The variants `flip_horizontal_kernel32`
  and `box_blur_kernel32` check every `int` result against the 32-bit range and
  are `none` on overflow; `machine_arithmetic` states when the two agree.
* `threadIdx`, `blockIdx`, `blockDim`, `gridDim` are pairs of naturals (the
  `z` component is `1` throughout the program).
* A kernel is a state transformer on the pair of buffers it receives; a launch
  `kernel<<<gridDim, blockDim>>>` runs the kernel once for every task of the
  grid, one task after the other.
* `main` is the sequence of its allocations, checked operations and releases,
  run on the set of live allocations; `exit(EXIT_FAILURE)` ends the run where
  it is called.  A file is the list of its bytes, or `none` when it cannot be
  opened.
-/

namespace BoxBlurFlip

/-! ## The program -/

/-- Device or host buffer of `unsigned char` samples. -/
abbrev Buffer := List Nat

/-- Two-dimensional index or extent (`dim3` with `z = 1`). -/
structure Dim3 where
  x : Nat
  y : Nat
deriving DecidableEq, Repr

/-- The two buffers a kernel is given: it reads `input` and writes `output`. -/
structure Mem where
  input : Buffer
  output : Buffer
deriving DecidableEq, Repr

/-- Read `buf[i]`; `none` when `i` is outside the buffer. -/
def load (buf : Buffer) (i : Int) : Option Nat :=
  if 0 ≤ i then buf[i.toNat]? else none

/-- Write `buf[i] = v`; `none` when `i` is outside the buffer. -/
def store (buf : Buffer) (i : Int) (v : Nat) : Option Buffer :=
  if 0 ≤ i ∧ i < (buf.length : Int) then some (buf.set i.toNat v) else none

/-- Conversion of an `int` to `unsigned char`: reduction modulo `256`. -/
def toUChar (v : Int) : Nat := (v % 256).toNat

/-- Auxiliary of `forLoop`: `n` iterations starting at index `i`. -/
def forLoopAux {σ : Type} (body : Int → σ → Option σ) : Nat → Int → σ → Option σ
  | 0, _, s => some s
  | n + 1, i, s => (body i s).bind (forLoopAux body n (i + 1))

/-- The loop `for (int i = lo; i <= hi; i++) body`: it runs `hi + 1 - lo` times when
`lo ≤ hi` and not at all otherwise. -/
def forLoop {σ : Type} (lo hi : Int) (body : Int → σ → Option σ) (s : σ) : Option σ :=
  forLoopAux body (hi + 1 - lo).toNat lo s

/-- `flip_horizontal_kernel`, lines 5-16: one task of the horizontal flip. -/
def flip_horizontal_kernel (blockIdx threadIdx blockDim : Dim3) (width height : Int)
    (m : Mem) : Option Mem :=
  let x : Int := ((threadIdx.x + blockIdx.x * blockDim.x : Nat) : Int)
  let y : Int := ((threadIdx.y + blockIdx.y * blockDim.y : Nat) : Int)
  if x ≥ width ∨ y ≥ height then some m
  else
    let index := y * width + x
    let flip_index := y * width + (width - x - 1)
    (load m.input flip_index).bind fun v =>
      (store m.output index v).map fun out => { m with output := out }

/-- The body of the inner loop of `box_blur_kernel`, lines 32-38, on the running
`(sum, count)`. -/
def blur_body (input : Buffer) (rows cols row col i j : Int) (acc : Int × Int) :
    Option (Int × Int) :=
  let curr_row := row + i
  let curr_col := col + j
  if curr_row ≥ 0 ∧ curr_row < rows ∧ curr_col ≥ 0 ∧ curr_col < cols then
    (load input (curr_row * cols + curr_col)).map fun (v : Nat) =>
      (acc.1 + (v : Int), acc.2 + 1)
  else some acc

/-- The two nested loops of `box_blur_kernel`, lines 30-40, started with
`sum = 0` and `count = 0`; the result is the final `(sum, count)`. -/
def blur_loops (input : Buffer) (rows cols row col kernel_radius : Int) :
    Option (Int × Int) :=
  forLoop (-kernel_radius) kernel_radius
    (fun i acc =>
      forLoop (-kernel_radius) kernel_radius
        (fun j acc => blur_body input rows cols row col i j acc) acc)
    (0, 0)

/-- `box_blur_kernel`, lines 19-43: one task of the box blur. -/
def box_blur_kernel (blockIdx threadIdx blockDim : Dim3) (rows cols kernel_size : Int)
    (m : Mem) : Option Mem :=
  let row : Int := ((blockIdx.y * blockDim.y + threadIdx.y : Nat) : Int)
  let col : Int := ((blockIdx.x * blockDim.x + threadIdx.x : Nat) : Int)
  let kernel_radius := kernel_size.tdiv 2
  let _kernel_area := kernel_size * kernel_size
  if row < rows ∧ col < cols then
    (blur_loops m.input rows cols row col kernel_radius).bind fun acc =>
      if acc.2 = 0 then none
      else
        (store m.output (row * cols + col) (toUChar (acc.1.tdiv acc.2))).map fun out =>
          { m with output := out }
  else some m

/-- The tasks of a launch: every `(blockIdx, threadIdx)` of the grid. -/
def gridTasks (gridDim blockDim : Dim3) : List (Dim3 × Dim3) :=
  (List.range gridDim.y).flatMap fun bj =>
    (List.range gridDim.x).flatMap fun bi =>
      (List.range blockDim.y).flatMap fun tj =>
        (List.range blockDim.x).map fun ti => (⟨bi, bj⟩, ⟨ti, tj⟩)

/-- Run a kernel on a list of tasks, one after the other. -/
def runTasks (kernel : Dim3 → Dim3 → Mem → Option Mem) :
    List (Dim3 × Dim3) → Mem → Option Mem
  | [], m => some m
  | t :: ts, m => (kernel t.1 t.2 m).bind (runTasks kernel ts)

/-- The launch `kernel<<<gridDim, blockDim>>>(...)`. -/
def launch (kernel : Dim3 → Dim3 → Dim3 → Mem → Option Mem) (gridDim blockDim : Dim3)
    (m : Mem) : Option Mem :=
  runTasks (fun b t => kernel b t blockDim) (gridTasks gridDim blockDim) m

/-- The block extent of `main`, line 100: `dim3 blockDim(16, 16)`. -/
def mainBlockDim : Dim3 := ⟨16, 16⟩

/-- The grid extent of `main`, line 101. -/
def mainGridDim (width height : Nat) : Dim3 :=
  ⟨(width + mainBlockDim.x - 1) / mainBlockDim.x,
   (height + mainBlockDim.y - 1) / mainBlockDim.y⟩

/-- The blur launch of `main`, line 108, for a raster of `rows` rows and `cols`
columns: the grid is the one computed from `width = cols` and `height = rows`. -/
def blur_launch (rows cols : Nat) (kernel_size : Int) (m : Mem) : Option Mem :=
  launch (fun b t d => box_blur_kernel b t d rows cols kernel_size)
    (mainGridDim cols rows) mainBlockDim m

/-- The pixel coordinate `(x, y)` a task computes from its block and thread index. -/
def taskCoord (blockDim : Dim3) (p : Dim3 × Dim3) : Nat × Nat :=
  (p.2.x + p.1.x * blockDim.x, p.2.y + p.1.y * blockDim.y)

/-- The bounds check of both kernels: the task's pixel lies inside the raster. -/
def inBounds (blockDim : Dim3) (width height : Nat) (p : Dim3 × Dim3) : Prop :=
  (taskCoord blockDim p).1 < width ∧ (taskCoord blockDim p).2 < height

/-- The kernel `K` reads `inp` only and, started on an output buffer of the raster's
size, writes `val x y` to the cell of its pixel `(x, y)` when that pixel is in bounds
and does nothing otherwise. -/
def WritesPixel (K : Dim3 → Dim3 → Mem → Option Mem) (d : Dim3) (w h : Nat)
    (inp : Buffer) (val : Nat → Nat → Nat) : Prop :=
  ∀ (b t : Dim3) (out : Buffer), out.length = w * h →
    K b t ⟨inp, out⟩ =
      some (if (taskCoord d (b, t)).1 < w ∧ (taskCoord d (b, t)).2 < h then
        ⟨inp, out.set ((taskCoord d (b, t)).2 * w + (taskCoord d (b, t)).1)
          (val (taskCoord d (b, t)).1 (taskCoord d (b, t)).2)⟩
      else ⟨inp, out⟩)

/-- The sample the flip writes to pixel `(x, y)`. -/
def flipVal (input : Buffer) (width : Nat) (x y : Nat) : Nat :=
  input.getD (y * width + (width - 1 - x)) 0

/-- The window of the blur at pixel `(row, col)` for radius `r`: the offsets `(i, j)`
with `i, j ∈ [-r, r]` whose candidate `(row + i, col + j)` lies inside
`[0, rows) x [0, cols)`. -/
def window (rows cols row col : Nat) (r : Int) : Finset (Int × Int) :=
  (Finset.Icc (-r) r ×ˢ Finset.Icc (-r) r).filter fun p =>
    0 ≤ (row : Int) + p.1 ∧ (row : Int) + p.1 < rows ∧
    0 ≤ (col : Int) + p.2 ∧ (col : Int) + p.2 < cols

/-- The sample `input[(row + i) * cols + (col + j)]` at offset `p = (i, j)`. -/
def sample (input : Buffer) (cols row col : Nat) (p : Int × Int) : Nat :=
  input.getD ((((row : Int) + p.1) * cols + ((col : Int) + p.2)).toNat) 0

/-- Sum of the in-bounds samples of the window. -/
def windowSum (input : Buffer) (rows cols row col : Nat) (r : Int) : Nat :=
  ∑ p ∈ window rows cols row col r, sample input cols row col p

/-- Number of in-bounds samples of the window. -/
def windowCount (rows cols row col : Nat) (r : Int) : Nat :=
  (window rows cols row col r).card

/-- The clipped mean of the spec: sum of the included samples divided (floor) by their
number. -/
def clippedMean (input : Buffer) (rows cols row col : Nat) (r : Int) : Nat :=
  windowSum input rows cols row col r / windowCount rows cols row col r

/-- The sample the blur writes to pixel `(x, y)` (column `x`, row `y`): the clipped
mean, stored to an `unsigned char`. -/
def blurVal (input : Buffer) (rows cols : Nat) (r : Int) (x y : Nat) : Nat :=
  clippedMean input rows cols y x r % 256

instance inBoundsDecidable (d : Dim3) (w h : Nat) (p : Dim3 × Dim3) :
    Decidable (inBounds d w h p) := by
  unfold inBounds
  infer_instance

/-- A value as a C `int` of 32 bits: `none` (signed overflow, undefined in C) when it
lies outside `[-2^31, 2^31 - 1]`. -/
def int32 (v : Int) : Option Int :=
  if -2147483648 ≤ v ∧ v ≤ 2147483647 then some v else none

/-- Auxiliary of `forLoop32`: as `forLoopAux`, with the increment `i++` checked. -/
def forLoopAux32 {σ : Type} (body : Int → σ → Option σ) : Nat → Int → σ → Option σ
  | 0, _, s => some s
  | n + 1, i, s =>
      (body i s).bind fun s' => (int32 (i + 1)).bind fun i' => forLoopAux32 body n i' s'

/-- The loop `for (int i = lo; i <= hi; i++) body` with the increment checked. -/
def forLoop32 {σ : Type} (lo hi : Int) (body : Int → σ → Option σ) (s : σ) : Option σ :=
  forLoopAux32 body (hi + 1 - lo).toNat lo s

/-- `flip_horizontal_kernel`, lines 5-16, with every `int` result checked to fit in 32
bits. -/
def flip_horizontal_kernel32 (blockIdx threadIdx blockDim : Dim3) (width height : Int)
    (m : Mem) : Option Mem :=
  let x : Int := ((threadIdx.x + blockIdx.x * blockDim.x : Nat) : Int)
  let y : Int := ((threadIdx.y + blockIdx.y * blockDim.y : Nat) : Int)
  if x ≥ width ∨ y ≥ height then some m
  else
    (int32 (y * width)).bind fun yw =>
    (int32 (yw + x)).bind fun index =>
    (int32 (y * width)).bind fun yw' =>
    (int32 (width - x)).bind fun wx =>
    (int32 (wx - 1)).bind fun wx1 =>
    (int32 (yw' + wx1)).bind fun flip_index =>
    (load m.input flip_index).bind fun v =>
      (store m.output index v).map fun out => { m with output := out }

/-- The body of the inner loop of `box_blur_kernel`, lines 32-38, with every `int` result
checked to fit in 32 bits. -/
def blur_body32 (input : Buffer) (rows cols row col i j : Int) (acc : Int × Int) :
    Option (Int × Int) :=
  (int32 (row + i)).bind fun curr_row =>
  (int32 (col + j)).bind fun curr_col =>
    if curr_row ≥ 0 ∧ curr_row < rows ∧ curr_col ≥ 0 ∧ curr_col < cols then
      (int32 (curr_row * cols)).bind fun rc =>
      (int32 (rc + curr_col)).bind fun idx =>
      (load input idx).bind fun (v : Nat) =>
      (int32 (acc.1 + (v : Int))).bind fun sum =>
      (int32 (acc.2 + 1)).map fun count => (sum, count)
    else some acc

/-- The two nested loops of `box_blur_kernel`, lines 30-40, with every `int` result
checked to fit in 32 bits. -/
def blur_loops32 (input : Buffer) (rows cols row col kernel_radius : Int) :
    Option (Int × Int) :=
  (int32 (-kernel_radius)).bind fun lo =>
    forLoop32 lo kernel_radius
      (fun i acc =>
        (int32 (-kernel_radius)).bind fun lo' =>
          forLoop32 lo' kernel_radius
            (fun j acc => blur_body32 input rows cols row col i j acc) acc)
      (0, 0)

/-- `box_blur_kernel`, lines 19-43, with every `int` result checked to fit in 32 bits
(the quotient `kernel_size / 2` by the constant `2` cannot overflow). -/
def box_blur_kernel32 (blockIdx threadIdx blockDim : Dim3) (rows cols kernel_size : Int)
    (m : Mem) : Option Mem :=
  let row : Int := ((blockIdx.y * blockDim.y + threadIdx.y : Nat) : Int)
  let col : Int := ((blockIdx.x * blockDim.x + threadIdx.x : Nat) : Int)
  let kernel_radius := kernel_size.tdiv 2
  (int32 (kernel_size * kernel_size)).bind fun _kernel_area =>
    if row < rows ∧ col < cols then
      (blur_loops32 m.input rows cols row col kernel_radius).bind fun acc =>
        if acc.2 = 0 then none
        else
          (int32 (acc.1.tdiv acc.2)).bind fun q =>
          (int32 (row * cols)).bind fun rc =>
          (int32 (rc + col)).bind fun idx =>
            (store m.output idx (toUChar q)).map fun out => { m with output := out }
    else some m

/-- The running `(sum, count)` of the blur is within the bounds that keep the next
additions in range: `0 ≤ sum ≤ 255 * count`, `0 ≤ count` and `count + slack ≤ cap`. -/
def AccInv (cap slack : Int) (s : Int × Int) : Prop :=
  0 ≤ s.1 ∧ 0 ≤ s.2 ∧ s.1 ≤ 255 * s.2 ∧ s.2 + slack ≤ cap

/-! ## Lemmas -/

theorem mem_gridTasks (g d : Dim3) (p : Dim3 × Dim3) :
    p ∈ gridTasks g d ↔ p.1.x < g.x ∧ p.1.y < g.y ∧ p.2.x < d.x ∧ p.2.y < d.y := by
  obtain ⟨⟨bx, bj⟩, ⟨tx, tj⟩⟩ := p
  simp only [gridTasks, List.mem_flatMap, List.mem_map, List.mem_range, Prod.mk.injEq,
    Dim3.mk.injEq]
  constructor
  · rintro ⟨a, ha, b, hb, c, hc, e, he, ⟨rfl, rfl⟩, rfl, rfl⟩
    exact ⟨hb, ha, he, hc⟩
  · rintro ⟨h1, h2, h3, h4⟩
    exact ⟨bj, h2, bx, h1, tj, h4, tx, h3, ⟨rfl, rfl⟩, rfl, rfl⟩

theorem idx_lt {w h x y : Nat} (hx : x < w) (hy : y < h) : y * w + x < w * h := by
  have h1 : (y + 1) * w ≤ h * w := Nat.mul_le_mul_right w hy
  have h2 : (y + 1) * w = y * w + w := by ring
  have h3 : h * w = w * h := Nat.mul_comm h w
  omega

theorem main_grid_covers {w h x y : Nat} (hx : x < w) (hy : y < h) :
    ∃ p ∈ gridTasks (mainGridDim w h) mainBlockDim, taskCoord mainBlockDim p = (x, y) := by
  refine ⟨(⟨x / 16, y / 16⟩, ⟨x % 16, y % 16⟩), ?_, ?_⟩
  · rw [mem_gridTasks]
    simp only [mainGridDim, mainBlockDim]
    omega
  · simp only [taskCoord, mainBlockDim, Prod.mk.injEq]
    omega

theorem load_natCast (buf : Buffer) (n : Nat) : load buf (n : Int) = buf[n]? := by
  simp [load]

theorem store_natCast (buf : Buffer) (n : Nat) (v : Nat) (hn : n < buf.length) :
    store buf (n : Int) v = some (buf.set n v) := by
  simp [store, hn]

theorem nodup_flatMap_range {α : Type} (n : Nat) (f : Nat → List α) (key : α → Nat)
    (hf : ∀ i, (f i).Nodup) (hkey : ∀ i a, a ∈ f i → key a = i) :
    ((List.range n).flatMap f).Nodup := by
  rw [List.nodup_flatMap]
  refine ⟨fun i _ => hf i, ?_⟩
  refine (List.nodup_range n).pairwise_of_forall_ne ?_
  intro i _ j _ hij a hai haj
  exact hij ((hkey i a hai).symm.trans (hkey j a haj))

theorem gridTasks_nodup (g d : Dim3) : (gridTasks g d).Nodup := by
  unfold gridTasks
  refine nodup_flatMap_range _ _ (fun p => p.1.y) (fun bj => ?_) ?_
  · refine nodup_flatMap_range _ _ (fun p => p.1.x) (fun bi => ?_) ?_
    · refine nodup_flatMap_range _ _ (fun p => p.2.y) (fun tj => ?_) ?_
      · refine (List.nodup_range _).map ?_
        intro a b hab
        simp only [Prod.mk.injEq, Dim3.mk.injEq] at hab
        exact hab.2.1
      · intro i a ha
        simp only [List.mem_map, List.mem_range] at ha
        obtain ⟨_, _, rfl⟩ := ha
        rfl
    · intro i a ha
      simp only [List.mem_flatMap, List.mem_map, List.mem_range] at ha
      obtain ⟨_, _, _, _, rfl⟩ := ha
      rfl
  · intro i a ha
    simp only [List.mem_flatMap, List.mem_map, List.mem_range] at ha
    obtain ⟨_, _, _, _, _, _, rfl⟩ := ha
    rfl

theorem flip_writesPixel (d : Dim3) (w h : Nat) (inp : Buffer) (hin : inp.length = w * h) :
    WritesPixel (fun b t => flip_horizontal_kernel b t d w h) d w h inp (flipVal inp w) := by
  intro b t out hout
  simp only [taskCoord, flip_horizontal_kernel]
  generalize t.x + b.x * d.x = x
  generalize t.y + b.y * d.y = y
  by_cases hb : x < w ∧ y < h
  · obtain ⟨hx, hy⟩ := hb
    have hc : ¬ ((x : Int) ≥ (w : Int) ∨ (y : Int) ≥ (h : Int)) := by omega
    have e1 : ((y : Int) * (w : Int) + ((w : Int) - (x : Int) - 1))
        = ((y * w + (w - 1 - x) : Nat) : Int) := by
      push_cast [Nat.cast_sub (show x ≤ w - 1 by omega), Nat.cast_sub (show 1 ≤ w by omega)]
      ring
    have e2 : ((y : Int) * (w : Int) + (x : Int)) = ((y * w + x : Nat) : Int) := by
      push_cast
      ring
    have hl1 : y * w + (w - 1 - x) < inp.length := by
      rw [hin]; exact idx_lt (by omega) hy
    have hl2 : y * w + x < out.length := by
      rw [hout]; exact idx_lt hx hy
    simp only [if_neg hc, e1, e2, load_natCast,
      store_natCast _ _ _ hl2, List.getElem?_eq_getElem hl1, Option.some_bind, Option.map_some',
      if_pos (And.intro hx hy), flipVal, List.getD_eq_getElem _ _ hl1]
  · have hc : ((x : Int) ≥ (w : Int) ∨ (y : Int) ≥ (h : Int)) := by omega
    simp only [if_pos hc, if_neg hb]

theorem forLoopAux_acc (body : Int → Int × Int → Option (Int × Int)) (f g : Int → Int)
    (hbody : ∀ i s, body i s = some (s.1 + f i, s.2 + g i)) (n : Nat) :
    ∀ (lo : Int) (s : Int × Int),
      forLoopAux body n lo s =
        some (s.1 + ∑ k ∈ Finset.range n, f (lo + k), s.2 + ∑ k ∈ Finset.range n, g (lo + k)) := by
  induction n with
  | zero => intro lo s; simp [forLoopAux]
  | succ n ih =>
    intro lo s
    simp only [forLoopAux, hbody, Option.some_bind, ih, Finset.sum_range_succ']
    congr 2
    · simp only [Nat.cast_add, Nat.cast_one, Nat.cast_zero, add_zero]
      have : ∀ k : ℕ, lo + 1 + (k : Int) = lo + ((k : Int) + 1) := fun k => by ring
      simp only [this]
      ring
    · simp only [Nat.cast_add, Nat.cast_one, Nat.cast_zero, add_zero]
      have : ∀ k : ℕ, lo + 1 + (k : Int) = lo + ((k : Int) + 1) := fun k => by ring
      simp only [this]
      ring

theorem forLoop_acc (body : Int → Int × Int → Option (Int × Int)) (f g : Int → Int)
    (hbody : ∀ i s, body i s = some (s.1 + f i, s.2 + g i)) (lo hi : Int) (s : Int × Int) :
    forLoop lo hi body s =
      some (s.1 + ∑ i ∈ Finset.Icc lo hi, f i, s.2 + ∑ i ∈ Finset.Icc lo hi, g i) := by
  rw [forLoop, forLoopAux_acc body f g hbody, Int.Icc_eq_finset_map, Finset.sum_map,
    Finset.sum_map]
  rfl

theorem load_in_window (input : Buffer) (rows cols row col : Nat) (i j : Int)
    (hin : input.length = rows * cols)
    (hg : (row : Int) + i ≥ 0 ∧ (row : Int) + i < rows ∧ (col : Int) + j ≥ 0 ∧
      (col : Int) + j < cols) :
    load input (((row : Int) + i) * cols + ((col : Int) + j))
      = some (sample input cols row col (i, j)) := by
  obtain ⟨h1, h2, h3, h4⟩ := hg
  obtain ⟨a, ha⟩ := Int.eq_ofNat_of_zero_le h1
  obtain ⟨b, hb⟩ := Int.eq_ofNat_of_zero_le h3
  have ha' : a < rows := by omega
  have hb' : b < cols := by omega
  have hidx : ((row : Int) + i) * cols + ((col : Int) + j) = ((a * cols + b : Nat) : Int) := by
    rw [ha, hb]; push_cast; ring
  have hlt : a * cols + b < input.length := by
    rw [hin, Nat.mul_comm rows cols]; exact idx_lt hb' ha'
  simp only [sample, hidx, load_natCast, Int.toNat_ofNat, List.getElem?_eq_getElem hlt,
    List.getD_eq_getElem _ _ hlt]

theorem blur_loops_eq (input : Buffer) (rows cols row col : Nat) (r : Int)
    (hin : input.length = rows * cols) :
    blur_loops input rows cols row col r =
      some ((windowSum input rows cols row col r : Int),
        (windowCount rows cols row col r : Int)) := by
  have hbody : ∀ (i j : Int) (s : Int × Int),
      blur_body input rows cols row col i j s =
        some (s.1 + (if (0 ≤ (row : Int) + i ∧ (row : Int) + i < rows ∧
            0 ≤ (col : Int) + j ∧ (col : Int) + j < cols)
          then (sample input cols row col (i, j) : Int) else 0),
          s.2 + (if (0 ≤ (row : Int) + i ∧ (row : Int) + i < rows ∧
            0 ≤ (col : Int) + j ∧ (col : Int) + j < cols) then 1 else 0)) := by
    intro i j s
    by_cases hg : (row : Int) + i ≥ 0 ∧ (row : Int) + i < rows ∧ (col : Int) + j ≥ 0 ∧
        (col : Int) + j < cols
    · simp only [blur_body, if_pos hg, load_in_window input rows cols row col i j hin hg,
        Option.map_some']
    · simp only [blur_body, if_neg hg]
      simp
  have houter := forLoop_acc
    (fun i acc => forLoop (-r) r (fun j acc => blur_body input rows cols row col i j acc) acc)
    _ _ (fun i s => forLoop_acc _ _ _ (hbody i) (-r) r s) (-r) r (0, 0)
  rw [blur_loops, houter]
  simp only [zero_add, windowSum, windowCount, window, Option.some.injEq, Prod.mk.injEq]
  constructor
  · rw [Finset.sum_filter, Finset.sum_product, Nat.cast_sum]
    refine Finset.sum_congr rfl fun i _ => ?_
    rw [Nat.cast_sum]
    refine Finset.sum_congr rfl fun j _ => ?_
    split_ifs <;> simp
  · rw [Finset.card_filter, Finset.sum_product, Nat.cast_sum]
    refine Finset.sum_congr rfl fun i _ => ?_
    rw [Nat.cast_sum]
    refine Finset.sum_congr rfl fun j _ => ?_
    split_ifs <;> simp


theorem mem_window (rows cols row col : Nat) (r : Int) (p : Int × Int) :
    p ∈ window rows cols row col r ↔
      (-r ≤ p.1 ∧ p.1 ≤ r) ∧ (-r ≤ p.2 ∧ p.2 ≤ r) ∧
      0 ≤ (row : Int) + p.1 ∧ (row : Int) + p.1 < rows ∧
      0 ≤ (col : Int) + p.2 ∧ (col : Int) + p.2 < cols := by
  simp only [window, Finset.mem_filter, Finset.mem_product, Finset.mem_Icc, and_assoc]

theorem centre_mem_window {rows cols row col : Nat} {r : Int} (hr : 0 ≤ r)
    (hrow : row < rows) (hcol : col < cols) : ((0 : Int), (0 : Int)) ∈ window rows cols row col r := by
  rw [mem_window]
  simp only [add_zero]
  omega

theorem windowCount_pos {rows cols row col : Nat} {r : Int} (hr : 0 ≤ r)
    (hrow : row < rows) (hcol : col < cols) : 0 < windowCount rows cols row col r :=
  Finset.card_pos.2 ⟨_, centre_mem_window hr hrow hcol⟩

theorem toUChar_natCast (n : Nat) : toUChar (n : Int) = n % 256 := by
  simp only [toUChar]
  omega

theorem blur_writesPixel (d : Dim3) (rows cols : Nat) (k : Int) (hk : 0 ≤ k.tdiv 2)
    (inp : Buffer) (hin : inp.length = rows * cols) :
    WritesPixel (fun b t => box_blur_kernel b t d rows cols k) d cols rows inp
      (blurVal inp rows cols (k.tdiv 2)) := by
  intro b t out hout
  simp only [taskCoord, box_blur_kernel]
  rw [Nat.add_comm (b.y * d.y) t.y, Nat.add_comm (b.x * d.x) t.x]
  generalize t.x + b.x * d.x = x
  generalize t.y + b.y * d.y = y
  by_cases hb : x < cols ∧ y < rows
  · obtain ⟨hx, hy⟩ := hb
    have hc : ((y : Int) < (rows : Int) ∧ (x : Int) < (cols : Int)) := by omega
    have e2 : ((y : Int) * (cols : Int) + (x : Int)) = ((y * cols + x : Nat) : Int) := by
      push_cast
      ring
    have hl2 : y * cols + x < out.length := by
      rw [hout]; exact idx_lt hx hy
    have hpos := windowCount_pos hk hy hx
    have hne : ¬ ((windowCount rows cols y x (k.tdiv 2) : Int) = 0) := by omega
    simp only [if_pos hc, blur_loops_eq inp rows cols y x _ hin, Option.some_bind, if_neg hne,
      e2, store_natCast _ _ _ hl2, Option.map_some', if_pos (And.intro hx hy),
      ← Int.ofNat_tdiv, toUChar_natCast, blurVal, clippedMean]
  · have hc : ¬ ((y : Int) < (rows : Int) ∧ (x : Int) < (cols : Int)) := by omega
    simp only [if_neg hc, if_neg hb]

theorem sample_mem_or_zero (input : Buffer) (cols row col : Nat) (p : Int × Int) :
    sample input cols row col p ∈ input ∨ sample input cols row col p = 0 := by
  unfold sample
  generalize (((row : Int) + p.1) * cols + ((col : Int) + p.2)).toNat = n
  by_cases hn : n < input.length
  · left
    rw [List.getD_eq_getElem _ _ hn]
    exact List.getElem_mem _
  · right
    rw [List.getD_eq_default _ _ (by omega)]

/-- The clipped mean lies between any lower and upper bound of the window's samples. -/
theorem clippedMean_bounds (input : Buffer) (rows cols row col : Nat) (r : Int) (lo hi : Nat)
    (hpos : 0 < windowCount rows cols row col r)
    (hb : ∀ p ∈ window rows cols row col r,
      lo ≤ sample input cols row col p ∧ sample input cols row col p ≤ hi) :
    lo ≤ clippedMean input rows cols row col r ∧ clippedMean input rows cols row col r ≤ hi := by
  have h1 : (window rows cols row col r).card • lo ≤ windowSum input rows cols row col r :=
    Finset.card_nsmul_le_sum _ _ _ fun p hp => (hb p hp).1
  have h2 : windowSum input rows cols row col r ≤ (window rows cols row col r).card • hi :=
    Finset.sum_le_card_nsmul _ _ _ fun p hp => (hb p hp).2
  simp only [smul_eq_mul] at h1 h2
  unfold clippedMean
  constructor
  · rw [Nat.le_div_iff_mul_le hpos, Nat.mul_comm]
    exact h1
  · exact Nat.div_le_of_le_mul h2

theorem clippedMean_le_255 (input : Buffer) (rows cols row col : Nat) (r : Int)
    (hbytes : ∀ v ∈ input, v < 256) : clippedMean input rows cols row col r ≤ 255 := by
  rcases Nat.eq_zero_or_pos (windowCount rows cols row col r) with h0 | hpos
  · simp [clippedMean, h0]
  · refine (clippedMean_bounds input rows cols row col r 0 255 hpos fun p _ => ?_).2
    rcases sample_mem_or_zero input cols row col p with h | h
    · have := hbytes _ h
      omega
    · omega

theorem odd_radius {k : Int} (hk1 : 1 ≤ k) (hodd : k % 2 = 1) : k.tdiv 2 = (k - 1) / 2 := by
  rw [Int.tdiv_eq_ediv (by omega) (by omega)]
  omega


theorem tdiv_two (k : Int) : k.tdiv 2 = if 0 ≤ k then k / 2 else -((-k) / 2) := by
  by_cases hk : 0 ≤ k
  · rw [if_pos hk, Int.tdiv_eq_ediv hk (by omega)]
  · rw [if_neg hk]
    have h : k = -(-k) := by omega
    rw [h, Int.neg_tdiv, Int.tdiv_eq_ediv (by omega) (by omega), neg_neg]

theorem radius_nonneg_iff (k : Int) : 0 ≤ k.tdiv 2 ↔ -1 ≤ k := by
  rw [tdiv_two]
  split_ifs <;> omega

theorem even_radius {k : Int} (hk : 0 ≤ k) (heven : k % 2 = 0) :
    k.tdiv 2 = (k + 1).tdiv 2 := by
  rw [tdiv_two, tdiv_two, if_pos hk, if_pos (by omega)]
  omega

theorem int32_of_range {v : Int} (h1 : -2147483648 ≤ v) (h2 : v ≤ 2147483647) :
    int32 v = some v := by
  simp only [int32, if_pos (And.intro h1 h2)]

theorem int32_none_of_gt {v : Int} (h : 2147483647 < v) : int32 v = none := by
  have hc : ¬ (-2147483648 ≤ v ∧ v ≤ 2147483647) := by omega
  simp only [int32, if_neg hc]

/-- A checked loop agrees with the exact loop when each iteration does, along an
invariant `P` indexed by the number of iterations left. -/
theorem forLoopAux32_eq {σ : Type} (body32 body : Int → σ → Option σ) (P : Nat → σ → Prop)
    (lo0 hi : Int) (hlo0 : -2147483648 ≤ lo0) (hhi : hi + 1 ≤ 2147483647)
    (hstep : ∀ (i : Int) (s : σ) (m : Nat), lo0 ≤ i → i ≤ hi → P (m + 1) s →
      body32 i s = body i s ∧ ∀ s', body i s = some s' → P m s') :
    ∀ (n : Nat) (lo : Int) (s : σ), lo0 ≤ lo → lo + n ≤ hi + 1 → P n s →
      forLoopAux32 body32 n lo s = forLoopAux body n lo s ∧
      ∀ s', forLoopAux body n lo s = some s' → P 0 s' := by
  intro n
  induction n with
  | zero =>
    intro lo s _ _ hP
    refine ⟨rfl, fun s' hs' => ?_⟩
    simp only [forLoopAux, Option.some.injEq] at hs'
    rw [← hs']
    exact hP
  | succ n ih =>
    intro lo s hlo hn hP
    have hn' : lo + (n : Int) + 1 ≤ hi + 1 := by
      have : ((n + 1 : Nat) : Int) = (n : Int) + 1 := by push_cast; ring
      omega
    obtain ⟨hb, hpost⟩ := hstep lo s n hlo (by omega) hP
    simp only [forLoopAux32, forLoopAux, hb]
    cases hbody : body lo s with
    | none => simp
    | some s' =>
      have h32 : int32 (lo + 1) = some (lo + 1) := int32_of_range (by omega) (by omega)
      simp only [Option.some_bind, h32]
      exact ih (lo + 1) s' (by omega) (by omega) (hpost s' hbody)

theorem flip32_eq (b t d : Dim3) (w h : Nat) (m : Mem) (hwh : w * h ≤ 2147483647) :
    flip_horizontal_kernel32 b t d w h m = flip_horizontal_kernel b t d w h m := by
  simp only [flip_horizontal_kernel32, flip_horizontal_kernel]
  generalize t.x + b.x * d.x = x
  generalize t.y + b.y * d.y = y
  by_cases hc : ((x : Int) ≥ (w : Int) ∨ (y : Int) ≥ (h : Int))
  · simp only [if_pos hc]
  · have hx : x < w := by omega
    have hy : y < h := by omega
    have hlt := idx_lt hx hy
    have hlt' : y * w + (w - 1 - x) < w * h := idx_lt (by omega) hy
    have e1 : (y : Int) * (w : Int) = ((y * w : Nat) : Int) := by push_cast; ring
    have h1 : int32 ((y : Int) * (w : Int)) = some ((y : Int) * (w : Int)) := by
      apply int32_of_range <;> rw [e1] <;> omega
    have h2 : int32 ((y : Int) * (w : Int) + (x : Int))
        = some ((y : Int) * (w : Int) + (x : Int)) := by
      apply int32_of_range <;> rw [e1] <;> omega
    have h3 : int32 ((w : Int) - (x : Int)) = some ((w : Int) - (x : Int)) := by
      apply int32_of_range <;> omega
    have h4 : int32 ((w : Int) - (x : Int) - 1) = some ((w : Int) - (x : Int) - 1) := by
      apply int32_of_range <;> omega
    have h5 : int32 ((y : Int) * (w : Int) + ((w : Int) - (x : Int) - 1))
        = some ((y : Int) * (w : Int) + ((w : Int) - (x : Int) - 1)) := by
      apply int32_of_range <;> rw [e1] <;> omega
    simp only [if_neg hc, h1, h2, h3, h4, h5, Option.some_bind]

theorem sample_le_255 (input : Buffer) (cols row col : Nat) (p : Int × Int)
    (hbytes : ∀ v ∈ input, v < 256) : sample input cols row col p ≤ 255 := by
  rcases sample_mem_or_zero input cols row col p with h | h
  · have := hbytes _ h
    omega
  · omega

/-- One iteration of the inner loop: the checked body agrees with the exact one and
keeps the running `(sum, count)` within bounds. -/
theorem blur_body32_eq (input : Buffer) (rows cols row col : Nat) (i j cap : Int) (m : Nat)
    (s : Int × Int) (hin : input.length = rows * cols) (hbytes : ∀ v ∈ input, v < 256)
    (hsize : rows * cols ≤ 2147483647)
    (hi : -2147483648 ≤ (row : Int) + i ∧ (row : Int) + i ≤ 2147483647)
    (hj : -2147483648 ≤ (col : Int) + j ∧ (col : Int) + j ≤ 2147483647)
    (hcap : 255 * cap ≤ 2147483647) (hs : AccInv cap ((m + 1 : Nat) : Int) s) :
    blur_body32 input rows cols row col i j s = blur_body input rows cols row col i j s ∧
    ∀ s', blur_body input rows cols row col i j s = some s' → AccInv cap (m : Int) s' := by
  obtain ⟨hs1, hs2, hs3, hs4⟩ := hs
  have hm : ((m + 1 : Nat) : Int) = (m : Int) + 1 := by push_cast; ring
  rw [hm] at hs4
  have h_cr := int32_of_range hi.1 hi.2
  have h_cc := int32_of_range hj.1 hj.2
  by_cases hg : (row : Int) + i ≥ 0 ∧ (row : Int) + i < rows ∧ (col : Int) + j ≥ 0 ∧
      (col : Int) + j < cols
  · have hl := load_in_window input rows cols row col i j hin hg
    have hv := sample_le_255 input cols row col (i, j) hbytes
    obtain ⟨g1, g2, g3, g4⟩ := hg
    obtain ⟨a, ha⟩ := Int.eq_ofNat_of_zero_le g1
    obtain ⟨c, hc⟩ := Int.eq_ofNat_of_zero_le g3
    have ha' : a < rows := by omega
    have hc' : c < cols := by omega
    have hlt : a * cols + c < cols * rows := idx_lt hc' ha'
    have hcr : cols * rows = rows * cols := Nat.mul_comm _ _
    have e1 : ((row : Int) + i) * (cols : Int) = ((a * cols : Nat) : Int) := by
      rw [ha]; push_cast; ring
    have e2 : (col : Int) + j = ((c : Nat) : Int) := hc
    have h_rc : int32 (((row : Int) + i) * (cols : Int))
        = some (((row : Int) + i) * (cols : Int)) := by
      apply int32_of_range <;> rw [e1] <;> omega
    have h_idx : int32 (((row : Int) + i) * (cols : Int) + ((col : Int) + j))
        = some (((row : Int) + i) * (cols : Int) + ((col : Int) + j)) := by
      apply int32_of_range <;> rw [e1, e2] <;> omega
    have h_sum : int32 (s.1 + (sample input cols row col (i, j) : Int))
        = some (s.1 + (sample input cols row col (i, j) : Int)) := by
      apply int32_of_range <;> omega
    have h_cnt : int32 (s.2 + 1) = some (s.2 + 1) := by
      apply int32_of_range <;> omega
    have hg' : (row : Int) + i ≥ 0 ∧ (row : Int) + i < rows ∧ (col : Int) + j ≥ 0 ∧
        (col : Int) + j < cols := ⟨g1, g2, g3, g4⟩
    simp only [blur_body32, blur_body, h_cr, h_cc, Option.some_bind, if_pos hg', h_rc, h_idx,
      hl, h_sum, h_cnt, Option.map_some', true_and]
    intro s' hs'
    simp only [Option.some.injEq] at hs'
    rw [← hs']
    refine ⟨?_, ?_, ?_, ?_⟩ <;> simp only <;> omega
  · simp only [blur_body32, blur_body, h_cr, h_cc, Option.some_bind, if_neg hg, true_and]
    intro s' hs'
    simp only [Option.some.injEq] at hs'
    rw [← hs']
    exact ⟨hs1, hs2, hs3, by omega⟩

/-- The inner loop of the blur: the checked loop agrees with the exact one. -/
theorem blur_inner32_eq (input : Buffer) (rows cols row col : Nat) (r i cap : Int)
    (s : Int × Int) (hin : input.length = rows * cols) (hbytes : ∀ v ∈ input, v < 256)
    (hsize : rows * cols ≤ 2147483647) (hr : 0 ≤ r)
    (hrow : (row : Int) + r ≤ 2147483647) (hcol : (col : Int) + r ≤ 2147483647)
    (hr2 : r + 1 ≤ 2147483647)
    (hi : -r ≤ i ∧ i ≤ r) (hcap : 255 * cap ≤ 2147483647)
    (hs : AccInv cap (2 * r + 1) s) :
    forLoop32 (-r) r (fun j acc => blur_body32 input rows cols row col i j acc) s
      = forLoop (-r) r (fun j acc => blur_body input rows cols row col i j acc) s ∧
    ∀ s', forLoop (-r) r (fun j acc => blur_body input rows cols row col i j acc) s = some s' →
      AccInv cap 0 s' := by
  have hn : (((r + 1 - -r).toNat : Nat) : Int) = 2 * r + 1 := by omega
  have h := forLoopAux32_eq
    (fun j acc => blur_body32 input rows cols row col i j acc)
    (fun j acc => blur_body input rows cols row col i j acc)
    (fun m s => AccInv cap (m : Int) s) (-r) r (by omega) (by omega)
    (fun j s m hj1 hj2 hP =>
      blur_body32_eq input rows cols row col i j cap m s hin hbytes hsize
        (by omega) (by omega) hcap hP)
    (r + 1 - -r).toNat (-r) s (le_refl _) (by omega)
    (by
      show AccInv cap (((r + 1 - -r).toNat : Nat) : Int) s
      rw [hn]
      exact hs)
  exact h

/-- The two nested loops of the blur: the checked loops agree with the exact ones. -/
theorem blur_loops32_eq (input : Buffer) (rows cols row col : Nat) (r : Int)
    (hin : input.length = rows * cols) (hbytes : ∀ v ∈ input, v < 256)
    (hsize : rows * cols ≤ 2147483647) (hr : 0 ≤ r)
    (hrow : (row : Int) + r ≤ 2147483647) (hcol : (col : Int) + r ≤ 2147483647)
    (hcap : (2 * r + 1) * (2 * r + 1) * 255 ≤ 2147483647) :
    blur_loops32 input rows cols row col r = blur_loops input rows cols row col r := by
  have hsq : 2 * r + 1 ≤ (2 * r + 1) * (2 * r + 1) := by nlinarith
  have hr2 : r + 1 ≤ 2147483647 := by omega
  have hneg : int32 (-r) = some (-r) := int32_of_range (by omega) (by omega)
  have hn : (((r + 1 - -r).toNat : Nat) : Int) = 2 * r + 1 := by omega
  have h := forLoopAux32_eq
    (fun i acc =>
      (int32 (-r)).bind fun lo' =>
        forLoop32 lo' r (fun j acc => blur_body32 input rows cols row col i j acc) acc)
    (fun i acc => forLoop (-r) r (fun j acc => blur_body input rows cols row col i j acc) acc)
    (fun m s => AccInv ((2 * r + 1) * (2 * r + 1)) ((m : Int) * (2 * r + 1)) s)
    (-r) r (by omega) (by omega)
    (fun i s m hi1 hi2 hP => by
      simp only [hneg, Option.some_bind]
      have hm : ((m + 1 : Nat) : Int) * (2 * r + 1) = (m : Int) * (2 * r + 1) + (2 * r + 1) := by
        push_cast; ring
      have hmn : 0 ≤ (m : Int) * (2 * r + 1) := by positivity
      obtain ⟨p1, p2, p3, p4⟩ := hP
      rw [hm] at p4
      have hinner := blur_inner32_eq input rows cols row col r i
        ((2 * r + 1) * (2 * r + 1) - (m : Int) * (2 * r + 1)) s hin hbytes hsize hr hrow hcol
        hr2 ⟨hi1, hi2⟩ (by omega) ⟨p1, p2, p3, by omega⟩
      refine ⟨hinner.1, fun s' hs' => ?_⟩
      obtain ⟨q1, q2, q3, q4⟩ := hinner.2 s' hs'
      exact ⟨q1, q2, q3, by omega⟩)
    (r + 1 - -r).toNat (-r) (0, 0) (le_refl _) (by omega)
    (by
      show AccInv ((2 * r + 1) * (2 * r + 1))
        ((((r + 1 - -r).toNat : Nat) : Int) * (2 * r + 1)) (0, 0)
      rw [hn]
      refine ⟨le_refl _, le_refl _, ?_, ?_⟩ <;> simp)
  have h1 := h.1
  simp only [hneg, Option.some_bind, forLoop32, forLoop] at h1
  simp only [blur_loops32, blur_loops, hneg, Option.some_bind, forLoop32, forLoop]
  exact h1

theorem windowCount_le (rows cols row col : Nat) (r : Int) (hr : 0 ≤ r) :
    (windowCount rows cols row col r : Int) ≤ (2 * r + 1) * (2 * r + 1) := by
  have h1 : windowCount rows cols row col r
      ≤ (Finset.Icc (-r) r ×ˢ Finset.Icc (-r) r).card := Finset.card_filter_le _ _
  rw [Finset.card_product, Int.card_Icc] at h1
  have h2 : (((r + 1 - -r).toNat : Nat) : Int) = 2 * r + 1 := by omega
  have h3 : ((windowCount rows cols row col r : Nat) : Int)
      ≤ (((r + 1 - -r).toNat * (r + 1 - -r).toNat : Nat) : Int) := by exact_mod_cast h1
  rw [Nat.cast_mul, h2] at h3
  exact h3

theorem windowSum_le (input : Buffer) (rows cols row col : Nat) (r : Int)
    (hbytes : ∀ v ∈ input, v < 256) :
    windowSum input rows cols row col r ≤ 255 * windowCount rows cols row col r := by
  have h := Finset.sum_le_card_nsmul (window rows cols row col r)
    (sample input cols row col) 255 (fun p _ => sample_le_255 input cols row col p hbytes)
  simp only [smul_eq_mul] at h
  rw [Nat.mul_comm]
  exact h

/-- An in-bounds task of the blur computes the same with checked 32-bit arithmetic as
with exact integers, provided the raster, the window and the sums of row or column and
radius fit. -/
theorem blur32_eq (b t d : Dim3) (rows cols : Nat) (k : Int) (inp out : Buffer)
    (hk : 0 ≤ k) (hin : inp.length = rows * cols) (hbytes : ∀ v ∈ inp, v < 256)
    (hsize : rows * cols ≤ 2147483647)
    (hcap : (2 * k.tdiv 2 + 1) * (2 * k.tdiv 2 + 1) * 255 ≤ 2147483647)
    (hrows : (rows : Int) + k.tdiv 2 ≤ 2147483648)
    (hcols : (cols : Int) + k.tdiv 2 ≤ 2147483648)
    (hb : (taskCoord d (b, t)).1 < cols ∧ (taskCoord d (b, t)).2 < rows) :
    box_blur_kernel32 b t d rows cols k ⟨inp, out⟩
      = box_blur_kernel b t d rows cols k ⟨inp, out⟩ := by
  have hr0 : 0 ≤ k.tdiv 2 := (radius_nonneg_iff _).2 (by omega)
  have hkr : k ≤ 2 * k.tdiv 2 + 1 := by
    rw [tdiv_two, if_pos hk]
    omega
  have hkk : k * k ≤ (2 * k.tdiv 2 + 1) * (2 * k.tdiv 2 + 1) := by nlinarith
  have hkk0 : 0 ≤ k * k := by nlinarith
  have harea : int32 (k * k) = some (k * k) := int32_of_range (by omega) (by omega)
  revert hb
  simp only [taskCoord, box_blur_kernel32, box_blur_kernel, harea, Option.some_bind]
  rw [Nat.add_comm (b.y * d.y) t.y, Nat.add_comm (b.x * d.x) t.x]
  generalize t.x + b.x * d.x = x
  generalize t.y + b.y * d.y = y
  rintro ⟨hx, hy⟩
  have hc : ((y : Int) < (rows : Int) ∧ (x : Int) < (cols : Int)) := by omega
  have hloops := blur_loops32_eq inp rows cols y x (k.tdiv 2) hin hbytes hsize hr0
    (by omega) (by omega) hcap
  have hpos := windowCount_pos hr0 hy hx
  have hne : ¬ ((windowCount rows cols y x (k.tdiv 2) : Int) = 0) := by omega
  have hq := clippedMean_le_255 inp rows cols y x (k.tdiv 2) hbytes
  have hlt : y * cols + x < cols * rows := idx_lt hx hy
  have hcr : cols * rows = rows * cols := Nat.mul_comm _ _
  have e1 : (y : Int) * (cols : Int) = ((y * cols : Nat) : Int) := by push_cast; ring
  have hdiv : int32 (((windowSum inp rows cols y x (k.tdiv 2) : Nat) : Int).tdiv
      ((windowCount rows cols y x (k.tdiv 2) : Nat) : Int))
      = some (((windowSum inp rows cols y x (k.tdiv 2) : Nat) : Int).tdiv
        ((windowCount rows cols y x (k.tdiv 2) : Nat) : Int)) := by
    rw [← Int.ofNat_tdiv]
    unfold clippedMean at hq
    generalize windowSum inp rows cols y x (k.tdiv 2) / windowCount rows cols y x (k.tdiv 2)
      = q at hq ⊢
    apply int32_of_range <;> omega
  have h1 : int32 ((y : Int) * (cols : Int)) = some ((y : Int) * (cols : Int)) := by
    apply int32_of_range <;> rw [e1] <;> omega
  have h2 : int32 ((y : Int) * (cols : Int) + (x : Int))
      = some ((y : Int) * (cols : Int) + (x : Int)) := by
    apply int32_of_range <;> rw [e1] <;> omega
  simp only [if_pos hc, hloops, blur_loops_eq inp rows cols y x _ hin, Option.some_bind,
    if_neg hne, hdiv, h1, h2]

/-- With 32-bit `int` the blur task of column `2^31 - 2` in a one-row raster of
`2^31 - 1` columns overflows for the window 5, whatever the buffers hold: at
`i = -2`, `j = 2` it computes `curr_col = 2147483646 + 2`. -/
theorem blur32_overflow (inp out : Buffer) :
    box_blur_kernel32 ⟨134217727, 0⟩ ⟨14, 0⟩ mainBlockDim (1 : Nat) (2147483647 : Nat) 5
      ⟨inp, out⟩ = none := by
  rfl

/-- With exact integers the same task succeeds on buffers of `2^31 - 1` samples. -/
theorem blur_exact_defined (inp out : Buffer) (hin : inp.length = 2147483647)
    (hout : out.length = 2147483647) :
    box_blur_kernel ⟨134217727, 0⟩ ⟨14, 0⟩ mainBlockDim (1 : Nat) (2147483647 : Nat) 5
      ⟨inp, out⟩ ≠ none := by
  have h := blur_writesPixel mainBlockDim 1 2147483647 5 (by decide) inp
    (by rw [hin]) ⟨134217727, 0⟩ ⟨14, 0⟩ out (by rw [hout])
  simp only at h
  intro hnone
  rw [hnone] at h
  exact Option.noConfusion h

/-! ## The claims -/

/-- C3 (partition coverage).  With 16x16 blocks and the grid
`((width+15)/16, (height+15)/16)` of `main`, the task list has no repeated task, and
every pixel `(x, y)` of `[0,width) x [0,height)` is the coordinate
`(threadIdx.x + 16*blockIdx.x, threadIdx.y + 16*blockIdx.y)` of exactly one task of the
grid that passes the bounds check: the map from in-bounds tasks to pixels is a
bijection. -/
theorem partition_coverage (width height : Nat) :
    (gridTasks (mainGridDim width height) mainBlockDim).Nodup ∧
    (∀ p ∈ gridTasks (mainGridDim width height) mainBlockDim,
      taskCoord mainBlockDim p = (p.2.x + 16 * p.1.x, p.2.y + 16 * p.1.y)) ∧
    (∀ p ∈ gridTasks (mainGridDim width height) mainBlockDim,
      inBounds mainBlockDim width height p →
        (taskCoord mainBlockDim p).1 < width ∧ (taskCoord mainBlockDim p).2 < height) ∧
    ∀ x y, x < width → y < height →
      ∃! p, p ∈ gridTasks (mainGridDim width height) mainBlockDim ∧
        inBounds mainBlockDim width height p ∧ taskCoord mainBlockDim p = (x, y) := by
  refine ⟨gridTasks_nodup _ _, ?_, fun p _ hp => hp, ?_⟩
  · intro p _
    simp only [taskCoord, mainBlockDim, Nat.mul_comm]
  · intro x y hx hy
    obtain ⟨p, hp, hc⟩ := main_grid_covers (w := width) (h := height) hx hy
    refine ⟨p, ⟨hp, ?_, hc⟩, ?_⟩
    · simp only [inBounds, hc]
      exact ⟨hx, hy⟩
    · rintro ⟨⟨bx, bj⟩, ⟨tx, tj⟩⟩ ⟨hq, _, hqc⟩
      obtain ⟨⟨px, pj⟩, ⟨sx, sj⟩⟩ := p
      rw [mem_gridTasks] at hq hp
      simp only [taskCoord, mainBlockDim, Prod.mk.injEq] at hqc hc hq hp
      simp only [Prod.mk.injEq, Dim3.mk.injEq]
      omega

theorem partition_coverage_witness :
    ∃! p, p ∈ gridTasks (mainGridDim 1024 768) mainBlockDim ∧
      inBounds mainBlockDim 1024 768 p ∧ taskCoord mainBlockDim p = (1023, 767) :=
  (partition_coverage 1024 768).2.2.2 1023 767 (by decide) (by decide)

/-- C16, the claim as stated fails: for the raster `width = 2^31 - 1`, `height = 1` and
the window `kernel_size = 5`, which satisfy `width * height ≤ 2^31 - 1` and
`(2*(kernel_size/2)+1)^2 * 255 = 6375 ≤ 2^31 - 1`, the in-bounds blur task of column
`2^31 - 2` computes `curr_col = col + j = 2^31` at `j = 2`: with 32-bit `int` the task
overflows, while with exact integers it succeeds. -/
theorem machine_arithmetic_counterexample :
    (1 ≤ 2147483647 ∧ 1 ≤ 1 ∧ 2147483647 * 1 ≤ 2147483647 ∧ (0 : Int) ≤ 5 ∧
      (2 * (5 : Int).tdiv 2 + 1) ^ 2 * 255 ≤ 2147483647) ∧
    inBounds mainBlockDim 2147483647 1 (⟨134217727, 0⟩, ⟨14, 0⟩) ∧
    taskCoord mainBlockDim (⟨134217727, 0⟩, ⟨14, 0⟩) = (2147483646, 0) ∧
    int32 (2147483646 + 2) = none ∧
    box_blur_kernel32 ⟨134217727, 0⟩ ⟨14, 0⟩ mainBlockDim (1 : Nat) (2147483647 : Nat) 5
      ⟨List.replicate 2147483647 0, List.replicate 2147483647 0⟩ = none ∧
    box_blur_kernel ⟨134217727, 0⟩ ⟨14, 0⟩ mainBlockDim (1 : Nat) (2147483647 : Nat) 5
      ⟨List.replicate 2147483647 0, List.replicate 2147483647 0⟩ ≠ none := by
  exact ⟨by decide, by decide, by decide, by decide, blur32_overflow _ _,
    blur_exact_defined _ _ (List.length_replicate _ _) (List.length_replicate _ _)⟩

/-- C16, amended (one more precondition).  For every `width`, `height` with
`width * height ≤ 2^31 - 1`, every `kernel_size ≥ 0` with
`(2*(kernel_size/2)+1)^2 * 255 ≤ 2^31 - 1` and, in addition,
`width + kernel_size/2 ≤ 2^31` and `height + kernel_size/2 ≤ 2^31`, and every raster of
bytes, both kernels compute for every in-bounds task exactly the same with every `int`
result checked to fit in 32 bits as with exact integers, and they succeed: no `int`
overflows.  Moreover `0 ≤ sum ≤ 255 * (2*(kernel_size/2)+1)^2`,
`1 ≤ count ≤ (2*(kernel_size/2)+1)^2`, the index `y*width + x` is at most
`width*height - 1`, and `sum / count` lies in `[0, 255]`, so the store to
`unsigned char` does not truncate. -/
theorem machine_arithmetic (width height : Nat) (kernel_size : Int) (input out : Buffer)
    (b t d : Dim3)
    (hsize : width * height ≤ 2147483647) (hk : 0 ≤ kernel_size)
    (hcap : (2 * kernel_size.tdiv 2 + 1) ^ 2 * 255 ≤ 2147483647)
    (hwr : (width : Int) + kernel_size.tdiv 2 ≤ 2147483648)
    (hhr : (height : Int) + kernel_size.tdiv 2 ≤ 2147483648)
    (hin : input.length = width * height) (hbytes : ∀ v ∈ input, v < 256)
    (hout : out.length = width * height)
    (hb : inBounds d width height (b, t)) :
    (∃ m', flip_horizontal_kernel32 b t d width height ⟨input, out⟩ = some m' ∧
      flip_horizontal_kernel b t d width height ⟨input, out⟩ = some m') ∧
    (∃ m', box_blur_kernel32 b t d height width kernel_size ⟨input, out⟩ = some m' ∧
      box_blur_kernel b t d height width kernel_size ⟨input, out⟩ = some m') ∧
    (taskCoord d (b, t)).2 * width + (taskCoord d (b, t)).1 ≤ width * height - 1 ∧
    ∃ sum count,
      blur_loops input height width (taskCoord d (b, t)).2 (taskCoord d (b, t)).1
        (kernel_size.tdiv 2) = some (sum, count) ∧
      0 ≤ sum ∧ sum ≤ 255 * (2 * kernel_size.tdiv 2 + 1) ^ 2 ∧
      1 ≤ count ∧ count ≤ (2 * kernel_size.tdiv 2 + 1) ^ 2 ∧
      0 ≤ sum.tdiv count ∧ sum.tdiv count ≤ 255 ∧
      (toUChar (sum.tdiv count) : Int) = sum.tdiv count := by
  have hb' : (taskCoord d (b, t)).1 < width ∧ (taskCoord d (b, t)).2 < height := hb
  have hr0 : 0 ≤ kernel_size.tdiv 2 := (radius_nonneg_iff _).2 (by omega)
  have hin' : input.length = height * width := by rw [hin, Nat.mul_comm]
  have hcap' : (2 * kernel_size.tdiv 2 + 1) * (2 * kernel_size.tdiv 2 + 1) * 255
      ≤ 2147483647 := by
    rw [← sq]; exact hcap
  refine ⟨?_, ?_, ?_, ?_⟩
  · have h := flip_writesPixel d width height input hin b t out hout
    rw [if_pos hb'] at h
    exact ⟨_, by rw [flip32_eq b t d width height _ hsize]; exact h, h⟩
  · have h := blur_writesPixel d height width kernel_size hr0 input hin' b t out hout
    rw [if_pos hb'] at h
    refine ⟨_, ?_, h⟩
    rw [blur32_eq b t d height width kernel_size input out hk hin' hbytes
      (by rw [Nat.mul_comm]; exact hsize) hcap' hhr hwr hb']
    exact h
  · have := idx_lt hb'.1 hb'.2
    omega
  · refine ⟨_, _, blur_loops_eq input height width _ _ _ hin', ?_⟩
    have hpos := windowCount_pos hr0 hb'.2 hb'.1
    have hcnt := windowCount_le height width (taskCoord d (b, t)).2 (taskCoord d (b, t)).1
      (kernel_size.tdiv 2) hr0
    have hsum := windowSum_le input height width (taskCoord d (b, t)).2
      (taskCoord d (b, t)).1 (kernel_size.tdiv 2) hbytes
    have hq := clippedMean_le_255 input height width (taskCoord d (b, t)).2
      (taskCoord d (b, t)).1 (kernel_size.tdiv 2) hbytes
    unfold clippedMean at hq
    rw [sq, ← Int.ofNat_tdiv, toUChar_natCast]
    generalize windowSum input height width (taskCoord d (b, t)).2 (taskCoord d (b, t)).1
      (kernel_size.tdiv 2) = S at hsum hq ⊢
    generalize windowCount height width (taskCoord d (b, t)).2 (taskCoord d (b, t)).1
      (kernel_size.tdiv 2) = C at hsum hq hpos hcnt ⊢
    generalize hQ : S / C = Q at hq ⊢
    refine ⟨by omega, ?_, by omega, hcnt, by omega, by omega, by omega⟩
    have : (S : Int) ≤ 255 * (C : Int) := by exact_mod_cast hsum
    nlinarith

theorem machine_arithmetic_witness :
    (1024 * 768 - 1 = 786431 ∧ (2 * (5 : Int).tdiv 2 + 1) ^ 2 * 255 = 6375) ∧
    ((∃ m', flip_horizontal_kernel32 ⟨63, 47⟩ ⟨15, 15⟩ mainBlockDim (1024 : Nat) (768 : Nat)
          ⟨List.replicate (1024 * 768) 7, List.replicate (1024 * 768) 0⟩ = some m' ∧
        flip_horizontal_kernel ⟨63, 47⟩ ⟨15, 15⟩ mainBlockDim (1024 : Nat) (768 : Nat)
          ⟨List.replicate (1024 * 768) 7, List.replicate (1024 * 768) 0⟩ = some m') ∧
      (∃ m', box_blur_kernel32 ⟨63, 47⟩ ⟨15, 15⟩ mainBlockDim (768 : Nat) (1024 : Nat) 5
          ⟨List.replicate (1024 * 768) 7, List.replicate (1024 * 768) 0⟩ = some m' ∧
        box_blur_kernel ⟨63, 47⟩ ⟨15, 15⟩ mainBlockDim (768 : Nat) (1024 : Nat) 5
          ⟨List.replicate (1024 * 768) 7, List.replicate (1024 * 768) 0⟩ = some m') ∧
      (taskCoord mainBlockDim (⟨63, 47⟩, ⟨15, 15⟩)).2 * 1024
          + (taskCoord mainBlockDim (⟨63, 47⟩, ⟨15, 15⟩)).1 ≤ 1024 * 768 - 1 ∧
      ∃ sum count,
        blur_loops (List.replicate (1024 * 768) 7) (768 : Nat) (1024 : Nat)
          (taskCoord mainBlockDim (⟨63, 47⟩, ⟨15, 15⟩)).2
          (taskCoord mainBlockDim (⟨63, 47⟩, ⟨15, 15⟩)).1
          ((5 : Int).tdiv 2) = some (sum, count) ∧
        0 ≤ sum ∧ sum ≤ 255 * (2 * (5 : Int).tdiv 2 + 1) ^ 2 ∧
        1 ≤ count ∧ count ≤ (2 * (5 : Int).tdiv 2 + 1) ^ 2 ∧
        0 ≤ sum.tdiv count ∧ sum.tdiv count ≤ 255 ∧
        (toUChar (sum.tdiv count) : Int) = sum.tdiv count) :=
  ⟨by decide,
    machine_arithmetic 1024 768 5 (List.replicate (1024 * 768) 7)
      (List.replicate (1024 * 768) 0) ⟨63, 47⟩ ⟨15, 15⟩ mainBlockDim
      (by decide) (by decide) (by decide) (by decide) (by decide)
      (List.length_replicate _ _)
      (fun v hv => by rw [List.eq_of_mem_replicate hv]; decide)
      (List.length_replicate _ _) (by decide)⟩

/-- C17 (even window sizes are silently widened).  The kernel takes the radius
`kernel_size / 2` and never checks oddness.  For every even `k ≥ 0` that radius is
`(k - 1) / 2 + 1`, the radius of the window `k + 1`, and for every memory, task and raster
size `box_blur_kernel` with window `k` returns exactly what it returns with window `k + 1`,
as does the whole launch; for every odd `k ≥ 1` the radius equals `(k - 1) / 2`. -/
theorem even_window_widened (k : Int) :
    (0 ≤ k → k % 2 = 0 →
      k.tdiv 2 = (k - 1) / 2 + 1 ∧ k.tdiv 2 = ((k + 1) - 1) / 2 ∧
      (∀ (b t d : Dim3) (rows cols : Int) (m : Mem),
        box_blur_kernel b t d rows cols k m = box_blur_kernel b t d rows cols (k + 1) m) ∧
      ∀ (rows cols : Nat) (m : Mem),
        blur_launch rows cols k m = blur_launch rows cols (k + 1) m) ∧
    (1 ≤ k → k % 2 = 1 → k.tdiv 2 = (k - 1) / 2) := by
  constructor
  · intro hk heven
    have hr := even_radius hk heven
    have hkernel : ∀ (b t d : Dim3) (rows cols : Int) (m : Mem),
        box_blur_kernel b t d rows cols k m = box_blur_kernel b t d rows cols (k + 1) m := by
      intro b t d rows cols m
      simp only [box_blur_kernel, hr]
    refine ⟨?_, ?_, hkernel, ?_⟩
    · rw [tdiv_two, if_pos hk]
      omega
    · rw [tdiv_two, if_pos hk]
      omega
    · intro rows cols m
      have hfun : (fun b t d => box_blur_kernel b t d (rows : Int) (cols : Int) k)
          = fun b t d => box_blur_kernel b t d (rows : Int) (cols : Int) (k + 1) := by
        funext b t d m'
        exact hkernel b t d rows cols m'
      simp only [blur_launch, hfun]
  · intro hk1 hodd
    exact odd_radius hk1 hodd

set_option maxRecDepth 1000000 in
theorem even_window_widened_witness :
    blur_launch 2 3 2 ⟨[1, 2, 3, 4, 5, 6], [0, 0, 0, 0, 0, 0]⟩
      = some ⟨[1, 2, 3, 4, 5, 6], [3, 3, 4, 3, 3, 4]⟩ ∧
    blur_launch 2 3 3 ⟨[1, 2, 3, 4, 5, 6], [0, 0, 0, 0, 0, 0]⟩
      = some ⟨[1, 2, 3, 4, 5, 6], [3, 3, 4, 3, 3, 4]⟩ ∧
    ((2 : Int).tdiv 2 = (2 - 1) / 2 + 1 ∧ (2 : Int).tdiv 2 = ((2 + 1) - 1) / 2 ∧
      (∀ (b t d : Dim3) (rows cols : Int) (m : Mem),
        box_blur_kernel b t d rows cols 2 m = box_blur_kernel b t d rows cols (2 + 1) m) ∧
      ∀ (rows cols : Nat) (m : Mem),
        blur_launch rows cols 2 m = blur_launch rows cols (2 + 1) m) ∧
    (3 : Int).tdiv 2 = (3 - 1) / 2 :=
  ⟨by decide, by decide, (even_window_widened 2).1 (by decide) (by decide),
    (even_window_widened 3).2 (by decide) (by decide)⟩

end BoxBlurFlip
